import Mathlib

set_option maxHeartbeats 1000000
set_option linter.unnecessarySeqFocus false

namespace Emomo

/-- Lowercased characters of a string, mirroring the Python expression
url.lower() as used in detect_format (ASCII case folding). -/
def lowerChars (s : String) : List Char := s.data.map Char.toLower

/-- Boolean test that the first list is a prefix of the second. -/
def isPrefixChars : List Char → List Char → Bool
  | [], _ => true
  | _ :: _, [] => false
  | c :: cs, d :: ds => if c = d then isPrefixChars cs ds else false

/-- Substring containment on character lists, mirroring the Python
operator needle in hay on strings. -/
def containsSub (hay needle : List Char) : Bool :=
  match hay with
  | [] => needle.isEmpty
  | _ :: rest => isPrefixChars needle hay || containsSub rest needle

/-- Model of detect_format from base.py: first the URL extension cascade
on the lowercased URL, then the content-type keyword cascade, else jpg.
The content-type branch only runs when the hint is present and nonempty,
mirroring Python truthiness of the optional string. -/
def detect_format (url : String) (content_type : Option String) : String :=
  let url_lower := lowerChars url
  if containsSub url_lower ".gif".data then "gif"
  else if containsSub url_lower ".png".data then "png"
  else if containsSub url_lower ".webp".data then "webp"
  else if containsSub url_lower ".jpg".data || containsSub url_lower ".jpeg".data then "jpg"
  else
    match content_type with
    | none => "jpg"
    | some ct =>
      if ct.data.isEmpty then "jpg"
      else if containsSub ct.data "gif".data then "gif"
      else if containsSub ct.data "png".data then "png"
      else if containsSub ct.data "webp".data then "webp"
      else "jpg"

/-- Absence of every extension substring that the URL cascade of
detect_format tests for, on the lowercased URL. -/
def noUrlExtension (url : String) : Prop :=
  containsSub (lowerChars url) ".gif".data = false ∧
  containsSub (lowerChars url) ".png".data = false ∧
  containsSub (lowerChars url) ".webp".data = false ∧
  containsSub (lowerChars url) ".jpg".data = false ∧
  containsSub (lowerChars url) ".jpeg".data = false

/-- Model of the StagingItem dataclass from staging.py, with its eight
fields in source order. -/
structure StagingItem where
  id : String
  filename : String
  category : String
  tags : List String
  source_url : String
  is_animated : Bool
  format : String
  crawled_at : String
deriving DecidableEq

/-- One physical line of a manifest.jsonl file, classified by what the
read loop of read_manifest does with it: a line that strips to empty, a
line that json.loads plus StagingItem.from_dict turn into a record, or a
line on which parsing raises (for example a truncated trailing write). -/
inductive ManifestLine where
  | record (item : StagingItem)
  | blank
  | garbage
deriving DecidableEq

/-- Model of the body of the read loop in StagingManager.read_manifest:
blank lines are skipped, record lines are accumulated in order, and a
line that fails to parse raises, which aborts the whole read. There is
no exception handler in the source, so the error propagates. -/
def parseLines : List ManifestLine → Except Unit (List StagingItem)
  | [] => Except.ok []
  | ManifestLine.blank :: rest => parseLines rest
  | ManifestLine.garbage :: _ => Except.error ()
  | ManifestLine.record it :: rest => (parseLines rest).map (fun its => it :: its)

/-- Model of StagingManager.read_manifest: a missing manifest file gives
the empty list, otherwise the line-by-line parse loop runs. The manifest
file content is modelled as an optional list of lines, none meaning the
file does not exist. -/
def read_manifest : Option (List ManifestLine) → Except Unit (List StagingItem)
  | none => Except.ok []
  | some ls => parseLines ls

/-- Model of StagingManager.append_manifest: open in append mode (which
creates the file when missing) and write one serialized record line. -/
def append_manifest (m : Option (List ManifestLine)) (it : StagingItem) :
    Option (List ManifestLine) :=
  some (m.getD [] ++ [ManifestLine.record it])

/-- Model of StagingManager.get_existing_ids: read the manifest and
collect the id field of every record. The Python set is modelled as the
list of ids, with membership as the set semantics. -/
def get_existing_ids (m : Option (List ManifestLine)) : Except Unit (List String) :=
  (read_manifest m).map (fun its => its.map StagingItem.id)

/-- The directory of one source inside the staging root: the optional
manifest file and the images directory, the latter as an association
list from filename to on-disk byte size. -/
structure SourceDir where
  manifest : Option (List ManifestLine)
  images : List (String × Nat)
deriving DecidableEq

/-- A fresh source directory: no manifest file, no image files. -/
def emptyDir : SourceDir := ⟨none, []⟩

/-- Write a file of the given size into an images directory, replacing
any existing file of the same name (open with mode wb truncates). -/
def writeImage : List (String × Nat) → String → Nat → List (String × Nat)
  | [], name, n => [(name, n)]
  | (f, sz) :: rest, name, n =>
    if f = name then (name, n) :: rest else (f, sz) :: writeImage rest name n

/-- Size of a file in an images directory, or none when the file does
not exist; mirrors the exists plus stat().st_size pair in get_stats. -/
def fileSize? : List (String × Nat) → String → Option Nat
  | [], _ => none
  | (f, sz) :: rest, name => if f = name then some sz else fileSize? rest name

/-- Model of the StagingStats dataclass from staging.py. The two Python
dicts are modelled as association lists in insertion order. -/
structure StagingStats where
  source_id : String
  total_images : Nat
  total_size_bytes : Nat
  categories : List (String × Nat)
  formats : List (String × Nat)
deriving DecidableEq

/-- Model of the Python dict update d[k] = d.get(k, 0) + 1: bump the
count of an existing key in place, or append the key with count one. -/
def bump : List (String × Nat) → String → List (String × Nat)
  | [], k => [(k, 1)]
  | (k', v) :: rest, k =>
    if k' = k then (k', v + 1) :: rest else (k', v) :: bump rest k

/-- Model of the Python dict read d.get(k, 0) on a histogram. -/
def countOf : List (String × Nat) → String → Nat
  | [], _ => 0
  | (k', v) :: rest, k => if k' = k then v else countOf rest k

/-- Total of all counts stored in a histogram. -/
def sumCounts (d : List (String × Nat)) : Nat := (d.map Prod.snd).sum

/-- One iteration of the loop body of get_stats: bump the category and
format histograms and, when the image file referenced by the record
exists, add its byte size to the running total. -/
def statsStep (images : List (String × Nat))
    (acc : Nat × List (String × Nat) × List (String × Nat)) (it : StagingItem) :
    Nat × List (String × Nat) × List (String × Nat) :=
  let categories := bump acc.2.1 it.category
  let formats := bump acc.2.2 it.format
  match fileSize? images it.filename with
  | some n => (acc.1 + n, categories, formats)
  | none => (acc.1, categories, formats)

/-- Model of StagingManager.get_stats: read the manifest, then fold the
loop body over the records; the error of the read propagates since the
source has no handler around it. -/
def get_stats (source_id : String) (d : SourceDir) : Except Unit StagingStats :=
  (read_manifest d.manifest).map (fun items =>
    let r := items.foldl (statsStep d.images) (0, [], [])
    ⟨source_id, items.length, r.1, r.2.1, r.2.2⟩)

/-- An entry of the staging root directory: either a plain file or a
source subdirectory. -/
inductive FsEntry where
  | file
  | dir (d : SourceDir)
deriving DecidableEq

/-- The staging root: none when the base path does not exist, otherwise
the named entries it contains. -/
structure Staging where
  root : Option (List (String × FsEntry))
deriving DecidableEq

/-- Look an entry up by name in a root listing. -/
def lookupEntry : List (String × FsEntry) → String → Option FsEntry
  | [], _ => none
  | (name, e) :: rest, s => if name = s then some e else lookupEntry rest s

/-- Existence and kind of the directory of a source under the root,
mirroring source_path.exists() in StagingManager.clean. -/
def findSource (st : Staging) (source_id : String) : Option FsEntry :=
  match st.root with
  | none => none
  | some l => lookupEntry l source_id

/-- Whether a root entry is a directory containing a manifest.jsonl
file, mirroring the filter in StagingManager.list_sources. -/
def hasManifest : FsEntry → Bool
  | FsEntry.file => false
  | FsEntry.dir d => d.manifest.isSome

/-- Model of StagingManager.list_sources: the empty list when the base
path does not exist, else the names of subdirectories with a manifest. -/
def list_sources (st : Staging) : List String :=
  match st.root with
  | none => []
  | some l => (l.filter (fun e => hasManifest e.2)).map (fun e => e.1)

/-- Remove every entry of the given name from a root listing. -/
def removeEntry : List (String × FsEntry) → String → List (String × FsEntry)
  | [], _ => []
  | (name, e) :: rest, s =>
    if name = s then removeEntry rest s else (name, e) :: removeEntry rest s

/-- Model of StagingManager.clean: when the source path does not exist
the call is a no-op; when it names a directory, shutil.rmtree deletes
the whole subtree; when it names a plain file, shutil.rmtree raises. -/
def clean (st : Staging) (source_id : String) : Except Unit Staging :=
  match findSource st source_id with
  | none => Except.ok st
  | some FsEntry.file => Except.error ()
  | some (FsEntry.dir _) =>
    match st.root with
    | none => Except.ok st
    | some l => Except.ok ⟨some (removeEntry l source_id)⟩

/-- Model of StagingManager.clean_all: delete the whole staging root if
it exists, no-op otherwise. -/
def clean_all (st : Staging) : Staging :=
  match st.root with
  | none => st
  | some _ => ⟨none⟩

/-- Model of the MemeItem dataclass from base.py. -/
structure MemeItem where
  id : String
  image_url : String
  category : String
  tags : List String
  is_animated : Bool
  format : String
deriving DecidableEq

/-- Model of create_staging_item from staging.py, with the wall-clock
timestamp passed in explicitly. -/
def create_staging_item (item_id : String) (filename : String) (category : String)
    (tags : List String) (source_url : String) (is_animated : Bool)
    (format : String) (crawled_at : String) : StagingItem :=
  ⟨item_id, filename, category, tags, source_url, is_animated, format, crawled_at⟩

/-- Boolean membership of a string in a list, modelling membership in
the Python set of already-seen ids. -/
def memStr : List String → String → Bool
  | [], _ => false
  | s :: rest, x => if s = x then true else memStr rest x

/-- The list comprehension in crawl that keeps only candidates whose id
is not yet in the seen set; the set is not altered while filtering. -/
def newOnPage (seen : List String) (items : List MemeItem) : List MemeItem :=
  items.filter (fun i => !(memStr seen i.id))

/-- The loop in crawl that adds the ids of the filtered candidates to
the seen set. -/
def addSeen (seen : List String) (items : List MemeItem) : List String :=
  items.foldl (fun s i => if memStr s i.id then s else i.id :: s) seen

/-- Model of the page-fetching while loop of FabiaoqingCrawler.crawl.
The external adapter is the function pages: none models a failed page
fetch, some items models a successfully fetched and parsed page. The
loop runs while fewer items than the limit are collected, stops on a
fetch failure or an empty page, and otherwise appends the candidates
that survive the seen filter and moves to the next page. The fuel
argument only bounds the recursion depth of the model; every theorem
about a finished run supplies enough fuel. Returns the collected items,
the final seen set and the final page counter. -/
def fetchLoop (pages : Nat → Option (List MemeItem)) (limit : Nat) :
    Nat → Nat → List String → List MemeItem → List MemeItem × List String × Nat
  | 0, page, seen, acc => (acc, seen, page)
  | fuel + 1, page, seen, acc =>
    if acc.length < limit then
      match pages page with
      | none => (acc, seen, page)
      | some items =>
        if items.isEmpty then (acc, seen, page)
        else
          fetchLoop pages limit fuel (page + 1)
            (addSeen seen (newOnPage seen items)) (acc ++ newOnPage seen items)
    else (acc, seen, page)

/-- Model of the download phase of FabiaoqingCrawler.crawl, processing
the collected candidates one at a time: a failed byte fetch drops the
item, a successful one writes the image file, appends the manifest
record and counts the item. Worker completion order is abstracted to
list order, which the claims do not depend on. -/
def processDownloads (download : String → Option Nat) (now : String) :
    List MemeItem → Nat → SourceDir → Nat × SourceDir
  | [], n, d => (n, d)
  | i :: rest, n, d =>
    match download i.image_url with
    | none => processDownloads download now rest n d
    | some bytes =>
      let filename := i.id ++ "." ++ i.format
      let item := create_staging_item i.id filename i.category i.tags
        i.image_url i.is_animated i.format now
      processDownloads download now rest (n + 1)
        ⟨append_manifest d.manifest item, writeImage d.images filename bytes⟩

/-- Starting page of a crawl: the integer value of the cursor when one
is supplied, else page one. -/
def cursorStart : Option Nat → Nat
  | some p => p
  | none => 1

/-- Model of FabiaoqingCrawler.crawl over one source directory: seed
the seen set from get_existing_ids (whose read error propagates, as in
the source), run the fetch loop from the cursor page, truncate the
collected candidates to the limit, run the download phase, and return
the count together with the next cursor, which is the final page
counter when at least one item was crawled and none otherwise. -/
def crawl (pages : Nat → Option (List MemeItem)) (download : String → Option Nat)
    (now : String) (fuel : Nat) (limit : Nat) (cursor : Option Nat) (d : SourceDir) :
    Except Unit (Nat × Option Nat × SourceDir) :=
  match get_existing_ids d.manifest with
  | Except.error e => Except.error e
  | Except.ok existing =>
    Except.ok
      ((processDownloads download now
          ((fetchLoop pages limit fuel (cursorStart cursor) existing []).1.take limit)
          0 d).1,
        (if (processDownloads download now
            ((fetchLoop pages limit fuel (cursorStart cursor) existing []).1.take limit)
            0 d).1 > 0
          then some (fetchLoop pages limit fuel (cursorStart cursor) existing []).2.2
          else none),
        (processDownloads download now
          ((fetchLoop pages limit fuel (cursorStart cursor) existing []).1.take limit)
          0 d).2)

/-- One crawl invocation against a source: the adapter behaviour and
the parameters of the call. -/
structure Invocation where
  pages : Nat → Option (List MemeItem)
  download : String → Option Nat
  now : String
  fuel : Nat
  limit : Nat
  cursor : Option Nat

/-- A sequence of crawl invocations against the same source, threading
the source directory through; an error aborts the sequence as a raised
exception would. -/
def runSeq : List Invocation → SourceDir → Except Unit SourceDir
  | [], d => Except.ok d
  | inv :: rest, d =>
    match crawl inv.pages inv.download inv.now inv.fuel inv.limit inv.cursor d with
    | Except.error e => Except.error e
    | Except.ok r => runSeq rest r.2.2

/-- The ids of the record lines of a list of manifest lines, in order. -/
def recordIds : List ManifestLine → List String
  | [] => []
  | ManifestLine.record it :: rest => it.id :: recordIds rest
  | ManifestLine.blank :: rest => recordIds rest
  | ManifestLine.garbage :: rest => recordIds rest

/-- The ids persisted in a manifest file, in append order. -/
def manifestIds (m : Option (List ManifestLine)) : List String :=
  recordIds (m.getD [])

/-- A manifest content none of whose lines fails to parse. -/
def noGarbage (m : Option (List ManifestLine)) : Prop :=
  ∀ l ∈ m.getD [], l ≠ ManifestLine.garbage

/-- Result of an Except computation, with a fallback for the error
case; used to state concrete counterexamples. -/
def exOr (e : Except Unit SourceDir) (d : SourceDir) : SourceDir :=
  match e with
  | Except.ok x => x
  | Except.error _ => d

/-- A concrete staged record used in concrete instances. -/
def sampleItem : StagingItem :=
  ⟨"a1", "a1.jpg", "cat", ["tag"], "http://e/a1.jpg", false, "jpg", "t0"⟩

/-- A second concrete staged record with a different id and format. -/
def sampleItem2 : StagingItem :=
  ⟨"b2", "b2.gif", "panda", [], "http://e/b2.gif", true, "gif", "t1"⟩

/-- A concrete candidate item used in concrete crawl runs. -/
def sampleMeme : MemeItem := ⟨"m1", "http://e/m1.jpg", "cat", [], false, "jpg"⟩

/-- Two candidates carrying the same id but different URLs, as the
abstract adapter interface of the spec allows on a single page. -/
def dupA : MemeItem := ⟨"dup", "http://e/x1.jpg", "cat", [], false, "jpg"⟩

/-- Second candidate with the same id as dupA. -/
def dupB : MemeItem := ⟨"dup", "http://e/x2.jpg", "cat", [], false, "jpg"⟩

/-- A crawl invocation whose first page repeats one id twice and whose
downloads all succeed. -/
def dupInv : Invocation :=
  ⟨fun p => if p = 1 then some [dupA, dupB] else some [],
    fun _ => some 7, "t0", 5, 10, none⟩

/-- A crawl invocation whose single nonempty page has distinct ids. -/
def okInv : Invocation :=
  ⟨fun p => if p = 1 then some [sampleMeme] else some [],
    fun _ => some 3, "t0", 5, 10, none⟩

theorem memStr_iff : ∀ (l : List String) (x : String), memStr l x = true ↔ x ∈ l
  | [], x => by simp [memStr]
  | s :: rest, x => by
    rw [memStr]
    by_cases h : s = x
    · subst h; simp
    · simp [h, memStr_iff rest x, Ne.symm h]

theorem parseLines_append_record (it : StagingItem) (ls : List ManifestLine) :
    ∀ its, parseLines ls = Except.ok its →
      parseLines (ls ++ [ManifestLine.record it]) = Except.ok (its ++ [it]) := by
  induction ls with
  | nil =>
    intro its h
    simp [parseLines] at h
    subst h
    simp [parseLines, Except.map]
  | cons l rest ih =>
    intro its h
    cases l with
    | blank =>
      rw [List.cons_append, parseLines]
      exact ih its (by rwa [parseLines] at h)
    | garbage =>
      rw [parseLines] at h
      exact absurd h (by simp)
    | record it' =>
      rw [parseLines] at h
      rw [List.cons_append, parseLines]
      cases hr : parseLines rest with
      | error e =>
        rw [hr] at h
        simp [Except.map] at h
      | ok its' =>
        rw [hr] at h
        simp [Except.map] at h
        rw [ih its' hr]
        simp [Except.map, ← h]

theorem parseLines_garbage_tail : ∀ ls : List ManifestLine,
    parseLines (ls ++ [ManifestLine.garbage]) = Except.error ()
  | [] => rfl
  | ManifestLine.blank :: rest => by
    rw [List.cons_append, parseLines]
    exact parseLines_garbage_tail rest
  | ManifestLine.garbage :: _ => rfl
  | ManifestLine.record it :: rest => by
    rw [List.cons_append, parseLines, parseLines_garbage_tail rest]
    rfl

/-- C1, corrected. The source loop of read_manifest has no exception
handler, so a manifest whose content ends in a non-parseable final line
makes read_manifest raise the parse error; the prior well-formed
records are not returned. Blank-stripping is the only tolerance. -/
theorem c1_read_manifest_raises_on_garbage_tail (ls : List ManifestLine) :
    read_manifest (some (ls ++ [ManifestLine.garbage])) = Except.error () := by
  rw [read_manifest]
  exact parseLines_garbage_tail ls

/-- C1 counterexample: on a manifest holding one well-formed record
followed by a truncated line, read_manifest raises instead of returning
the prior record, contrary to the claim. -/
theorem c1_counterexample :
    read_manifest (some [ManifestLine.record sampleItem, ManifestLine.garbage])
        = Except.error () ∧
      read_manifest (some [ManifestLine.record sampleItem, ManifestLine.garbage])
        ≠ Except.ok [sampleItem] := by
  refine ⟨rfl, fun h => ?_⟩
  simp [read_manifest, parseLines, Except.map] at h

/-- C4, corrected. Appending a record and then reading the manifest
back yields the previously stored records followed by the appended one
with all its fields intact, provided the prior content itself reads
back successfully; a prior unparseable line makes the read raise. -/
theorem c4_append_then_read (m : Option (List ManifestLine)) (it : StagingItem)
    (its : List StagingItem) (h : read_manifest m = Except.ok its) :
    read_manifest (append_manifest m it) = Except.ok (its ++ [it]) := by
  cases m with
  | none =>
    simp [read_manifest, parseLines] at h
    subst h
    simp [append_manifest, read_manifest, parseLines, Except.map]
  | some ls =>
    rw [read_manifest] at h
    rw [append_manifest]
    simpa [read_manifest, Option.getD] using parseLines_append_record it ls its h

theorem c4_witness :
    read_manifest (some [ManifestLine.blank]) = Except.ok [] ∧
    read_manifest (append_manifest (some [ManifestLine.blank]) sampleItem)
      = Except.ok [sampleItem] :=
  ⟨rfl, c4_append_then_read (some [ManifestLine.blank]) sampleItem [] rfl⟩

/-- C4 counterexample: when the prior manifest content holds an
unparseable line, appending a record and reading back raises instead of
yielding a sequence containing the record, contrary to the claim as
stated for every prior content. -/
theorem c4_counterexample :
    read_manifest (append_manifest (some [ManifestLine.garbage]) sampleItem)
        = Except.error () ∧
      read_manifest (append_manifest (some [ManifestLine.garbage]) sampleItem)
        ≠ Except.ok [sampleItem] := by
  refine ⟨rfl, fun h => ?_⟩
  simp [append_manifest, read_manifest, parseLines, Except.map] at h

/-- C3, confirmed. detect_format resolves by the first matching rule in
priority order: extension evidence in the lowercased URL, gif before
png before webp before jpg or jpeg, always outranks the content-type
keyword cascade, gif before png before webp, which only runs when no
URL extension matched and the hint is present and nonempty; with
neither signal the result is jpg. The three concrete instances of the
claim are included: a URL containing .gif with content-type image/png
resolves to gif, a URL with no recognizable extension and content-type
image/webp resolves to webp, and with neither signal the result is
jpg. -/
theorem c3_detect_format :
    (∀ url ct, containsSub (lowerChars url) ".gif".data = true →
        detect_format url ct = "gif") ∧
    (∀ url ct, containsSub (lowerChars url) ".gif".data = false →
        containsSub (lowerChars url) ".png".data = true →
        detect_format url ct = "png") ∧
    (∀ url ct, containsSub (lowerChars url) ".gif".data = false →
        containsSub (lowerChars url) ".png".data = false →
        containsSub (lowerChars url) ".webp".data = true →
        detect_format url ct = "webp") ∧
    (∀ url ct, containsSub (lowerChars url) ".gif".data = false →
        containsSub (lowerChars url) ".png".data = false →
        containsSub (lowerChars url) ".webp".data = false →
        (containsSub (lowerChars url) ".jpg".data = true ∨
          containsSub (lowerChars url) ".jpeg".data = true) →
        detect_format url ct = "jpg") ∧
    (∀ url c, noUrlExtension url → c.data.isEmpty = false →
        containsSub c.data "gif".data = true →
        detect_format url (some c) = "gif") ∧
    (∀ url c, noUrlExtension url → c.data.isEmpty = false →
        containsSub c.data "gif".data = false →
        containsSub c.data "png".data = true →
        detect_format url (some c) = "png") ∧
    (∀ url c, noUrlExtension url → c.data.isEmpty = false →
        containsSub c.data "gif".data = false →
        containsSub c.data "png".data = false →
        containsSub c.data "webp".data = true →
        detect_format url (some c) = "webp") ∧
    (∀ url, noUrlExtension url → detect_format url none = "jpg") ∧
    (∀ url c, noUrlExtension url → c.data.isEmpty = false →
        containsSub c.data "gif".data = false →
        containsSub c.data "png".data = false →
        containsSub c.data "webp".data = false →
        detect_format url (some c) = "jpg") ∧
    detect_format "http://x/a.gif" (some "image/png") = "gif" ∧
    detect_format "http://x/a" (some "image/webp") = "webp" ∧
    detect_format "http://x/a" none = "jpg" := by
  refine ⟨?_, ?_, ?_, ?_, ?_, ?_, ?_, ?_, ?_, by decide, by decide, by decide⟩
  · intro url ct h
    simp [detect_format, h]
  · intro url ct h1 h2
    simp [detect_format, h1, h2]
  · intro url ct h1 h2 h3
    simp [detect_format, h1, h2, h3]
  · intro url ct h1 h2 h3 h4
    cases h4 with
    | inl h => simp [detect_format, h1, h2, h3, h]
    | inr h => simp [detect_format, h1, h2, h3, h]
  · intro url c hu he h
    obtain ⟨h1, h2, h3, h4, h5⟩ := hu
    simp [detect_format, h1, h2, h3, h4, h5, he, h]
  · intro url c hu he hg h
    obtain ⟨h1, h2, h3, h4, h5⟩ := hu
    simp [detect_format, h1, h2, h3, h4, h5, he, hg, h]
  · intro url c hu he hg hp h
    obtain ⟨h1, h2, h3, h4, h5⟩ := hu
    simp [detect_format, h1, h2, h3, h4, h5, he, hg, hp, h]
  · intro url hu
    obtain ⟨h1, h2, h3, h4, h5⟩ := hu
    simp [detect_format, h1, h2, h3, h4, h5]
  · intro url c hu he hg hp hw
    obtain ⟨h1, h2, h3, h4, h5⟩ := hu
    simp [detect_format, h1, h2, h3, h4, h5, he, hg, hp, hw]

theorem c3_witness :
    containsSub (lowerChars "http://e/MEME.GIF") ".gif".data = true ∧
    detect_format "http://e/MEME.GIF" (some "image/png") = "gif" :=
  ⟨by decide, c3_detect_format.1 "http://e/MEME.GIF" (some "image/png") (by decide)⟩

theorem countOf_bump (k k' : String) : ∀ d : List (String × Nat),
    countOf (bump d k') k = countOf d k + if k' = k then 1 else 0
  | [] => by by_cases h : k' = k <;> simp [bump, countOf, h]
  | (a, v) :: rest => by
    by_cases h1 : a = k'
    · subst h1
      by_cases h2 : a = k
      · subst h2
        simp [bump, countOf]
      · simp [bump, countOf, h2]
    · by_cases h2 : a = k
      · subst h2
        simp [bump, countOf, h1, fun hh : a = k' => h1 hh, Ne.symm h1]
      · simp [bump, countOf, h1, h2, countOf_bump k k' rest]

theorem sumCounts_bump (k : String) : ∀ d : List (String × Nat),
    sumCounts (bump d k) = sumCounts d + 1
  | [] => by simp [bump, sumCounts]
  | (a, v) :: rest => by
    by_cases h : a = k
    · simp [bump, h, sumCounts]
      omega
    · simp only [bump, if_neg h, sumCounts, List.map_cons, List.sum_cons]
      have hr := sumCounts_bump k rest
      simp only [sumCounts] at hr
      rw [hr]
      omega

theorem statsFold_size (images : List (String × Nat)) :
    ∀ (its : List StagingItem) (ts : Nat) (cs fs : List (String × Nat)),
      (its.foldl (statsStep images) (ts, cs, fs)).1
        = ts + (its.map (fun it => (fileSize? images it.filename).getD 0)).sum
  | [], ts, cs, fs => by simp
  | it :: rest, ts, cs, fs => by
    rw [List.foldl_cons, List.map_cons, List.sum_cons]
    cases hfs : fileSize? images it.filename with
    | none =>
      simp only [statsStep, hfs]
      rw [statsFold_size images rest]
      simp
    | some n =>
      simp only [statsStep, hfs]
      rw [statsFold_size images rest]
      simp
      omega

theorem statsFold_cat (images : List (String × Nat)) (c : String) :
    ∀ (its : List StagingItem) (ts : Nat) (cs fs : List (String × Nat)),
      countOf (its.foldl (statsStep images) (ts, cs, fs)).2.1 c
        = countOf cs c + its.countP (fun it => decide (it.category = c))
  | [], ts, cs, fs => by simp
  | it :: rest, ts, cs, fs => by
    rw [List.foldl_cons, List.countP_cons]
    cases hfs : fileSize? images it.filename with
    | none =>
      simp only [statsStep, hfs]
      rw [statsFold_cat images c rest, countOf_bump]
      by_cases h : it.category = c <;> simp [h] <;> try omega
    | some n =>
      simp only [statsStep, hfs]
      rw [statsFold_cat images c rest, countOf_bump]
      by_cases h : it.category = c <;> simp [h] <;> try omega

theorem statsFold_fmt (images : List (String × Nat)) (f : String) :
    ∀ (its : List StagingItem) (ts : Nat) (cs fs : List (String × Nat)),
      countOf (its.foldl (statsStep images) (ts, cs, fs)).2.2 f
        = countOf fs f + its.countP (fun it => decide (it.format = f))
  | [], ts, cs, fs => by simp
  | it :: rest, ts, cs, fs => by
    rw [List.foldl_cons, List.countP_cons]
    cases hfs : fileSize? images it.filename with
    | none =>
      simp only [statsStep, hfs]
      rw [statsFold_fmt images f rest, countOf_bump]
      by_cases h : it.format = f <;> simp [h] <;> try omega
    | some n =>
      simp only [statsStep, hfs]
      rw [statsFold_fmt images f rest, countOf_bump]
      by_cases h : it.format = f <;> simp [h] <;> try omega

theorem statsFold_cat_sum (images : List (String × Nat)) :
    ∀ (its : List StagingItem) (ts : Nat) (cs fs : List (String × Nat)),
      sumCounts (its.foldl (statsStep images) (ts, cs, fs)).2.1
        = sumCounts cs + its.length
  | [], ts, cs, fs => by simp
  | it :: rest, ts, cs, fs => by
    rw [List.foldl_cons]
    cases hfs : fileSize? images it.filename with
    | none =>
      simp only [statsStep, hfs]
      rw [statsFold_cat_sum images rest, sumCounts_bump]
      simp [Nat.add_assoc, Nat.add_comm 1]
    | some n =>
      simp only [statsStep, hfs]
      rw [statsFold_cat_sum images rest, sumCounts_bump]
      simp [Nat.add_assoc, Nat.add_comm 1]

theorem statsFold_fmt_sum (images : List (String × Nat)) :
    ∀ (its : List StagingItem) (ts : Nat) (cs fs : List (String × Nat)),
      sumCounts (its.foldl (statsStep images) (ts, cs, fs)).2.2
        = sumCounts fs + its.length
  | [], ts, cs, fs => by simp
  | it :: rest, ts, cs, fs => by
    rw [List.foldl_cons]
    cases hfs : fileSize? images it.filename with
    | none =>
      simp only [statsStep, hfs]
      rw [statsFold_fmt_sum images rest, sumCounts_bump]
      simp [Nat.add_assoc, Nat.add_comm 1]
    | some n =>
      simp only [statsStep, hfs]
      rw [statsFold_fmt_sum images rest, sumCounts_bump]
      simp [Nat.add_assoc, Nat.add_comm 1]

/-- C6, confirmed. When the manifest reads back as a list of records,
get_stats succeeds, counts every record in total_images and in both
histograms, and adds a byte size only for records whose image file
exists in the images directory: a record with a missing file counts in
the totals and histograms but contributes zero bytes. -/
theorem c6_get_stats (sid : String) (d : SourceDir) (its : List StagingItem)
    (h : read_manifest d.manifest = Except.ok its) :
    ∃ s, get_stats sid d = Except.ok s
      ∧ s.total_images = its.length
      ∧ (∀ c, countOf s.categories c = its.countP (fun it => decide (it.category = c)))
      ∧ (∀ f, countOf s.formats f = its.countP (fun it => decide (it.format = f)))
      ∧ s.total_size_bytes
          = (its.map (fun it => (fileSize? d.images it.filename).getD 0)).sum := by
  have hs : get_stats sid d = Except.ok
      (⟨sid, its.length, (its.foldl (statsStep d.images) (0, [], [])).1,
        (its.foldl (statsStep d.images) (0, [], [])).2.1,
        (its.foldl (statsStep d.images) (0, [], [])).2.2⟩ : StagingStats) := by
    unfold get_stats
    rw [h]
    rfl
  refine ⟨_, hs, rfl, ?_, ?_, ?_⟩
  · intro c
    have := statsFold_cat d.images c its 0 [] []
    simpa [countOf] using this
  · intro f
    have := statsFold_fmt d.images f its 0 [] []
    simpa [countOf] using this
  · exact (statsFold_size d.images its 0 [] []).trans (by simp)

theorem c6_witness :
    read_manifest (some [ManifestLine.record sampleItem]) = Except.ok [sampleItem] ∧
    (∃ s, get_stats "src" ⟨some [ManifestLine.record sampleItem], []⟩ = Except.ok s
      ∧ s.total_images = [sampleItem].length
      ∧ (∀ c, countOf s.categories c
          = [sampleItem].countP (fun it => decide (it.category = c)))
      ∧ (∀ f, countOf s.formats f
          = [sampleItem].countP (fun it => decide (it.format = f)))
      ∧ s.total_size_bytes
          = ([sampleItem].map
              (fun it => (fileSize? ([] : List (String × Nat)) it.filename).getD 0)).sum) :=
  ⟨rfl, c6_get_stats "src" ⟨some [ManifestLine.record sampleItem], []⟩ [sampleItem] rfl⟩

/-- C9, confirmed. When the manifest reads back, the stats of a source
satisfy: total_images is the number of records read, and the counts in
the category histogram and in the format histogram each sum to
total_images, every record being counted exactly once in each. -/
theorem c9_histogram_sums (sid : String) (d : SourceDir) (its : List StagingItem)
    (h : read_manifest d.manifest = Except.ok its) :
    ∃ s, get_stats sid d = Except.ok s
      ∧ s.total_images = its.length
      ∧ sumCounts s.categories = s.total_images
      ∧ sumCounts s.formats = s.total_images := by
  have hs : get_stats sid d = Except.ok
      (⟨sid, its.length, (its.foldl (statsStep d.images) (0, [], [])).1,
        (its.foldl (statsStep d.images) (0, [], [])).2.1,
        (its.foldl (statsStep d.images) (0, [], [])).2.2⟩ : StagingStats) := by
    unfold get_stats
    rw [h]
    rfl
  refine ⟨_, hs, rfl, ?_, ?_⟩
  · have := statsFold_cat_sum d.images its 0 [] []
    simpa [sumCounts] using this
  · have := statsFold_fmt_sum d.images its 0 [] []
    simpa [sumCounts] using this

theorem c9_witness :
    read_manifest (some [ManifestLine.record sampleItem, ManifestLine.record sampleItem2])
        = Except.ok [sampleItem, sampleItem2] ∧
    (∃ s, get_stats "src"
          ⟨some [ManifestLine.record sampleItem, ManifestLine.record sampleItem2],
            [("a1.jpg", 10)]⟩ = Except.ok s
      ∧ s.total_images = [sampleItem, sampleItem2].length
      ∧ sumCounts s.categories = s.total_images
      ∧ sumCounts s.formats = s.total_images) :=
  ⟨rfl, c9_histogram_sums "src"
    ⟨some [ManifestLine.record sampleItem, ManifestLine.record sampleItem2],
      [("a1.jpg", 10)]⟩ [sampleItem, sampleItem2] rfl⟩

theorem memStr_false (seen : List String) (x : String) (h : x ∉ seen) :
    memStr seen x = false := by
  cases hm : memStr seen x with
  | false => rfl
  | true => exact absurd ((memStr_iff seen x).mp hm) h

theorem newOnPage_mem {seen : List String} {items : List MemeItem} {i : MemeItem}
    (h : i ∈ newOnPage seen items) : i ∈ items ∧ i.id ∉ seen := by
  unfold newOnPage at h
  have hm := List.mem_filter.mp h
  refine ⟨hm.1, fun hin => ?_⟩
  have hb := hm.2
  rw [(memStr_iff seen i.id).mpr hin] at hb
  simp at hb

theorem newOnPage_eq_self {seen : List String} {items : List MemeItem}
    (h : ∀ i ∈ items, i.id ∉ seen) : newOnPage seen items = items := by
  unfold newOnPage
  rw [List.filter_eq_self]
  intro i hi
  rw [memStr_false seen i.id (h i hi)]
  rfl

theorem newOnPage_ids_nodup {seen : List String} {items : List MemeItem}
    (h : (items.map MemeItem.id).Nodup) :
    ((newOnPage seen items).map MemeItem.id).Nodup :=
  ((List.filter_sublist items).map MemeItem.id).nodup h

theorem addSeen_subset : ∀ (items : List MemeItem) (seen : List String) (x : String),
    x ∈ seen → x ∈ addSeen seen items
  | [], _, _, h => h
  | i :: rest, seen, x, h => by
    show x ∈ addSeen (if memStr seen i.id then seen else i.id :: seen) rest
    by_cases hm : memStr seen i.id = true
    · rw [if_pos hm]
      exact addSeen_subset rest seen x h
    · rw [if_neg hm]
      exact addSeen_subset rest (i.id :: seen) x (List.mem_cons_of_mem _ h)

theorem addSeen_mem : ∀ (items : List MemeItem) (seen : List String) (i : MemeItem),
    i ∈ items → i.id ∈ addSeen seen items
  | [], _, i, h => absurd h (List.not_mem_nil i)
  | j :: rest, seen, i, h => by
    show i.id ∈ addSeen (if memStr seen j.id then seen else j.id :: seen) rest
    rcases List.mem_cons.mp h with rfl | hr
    · apply addSeen_subset rest
      by_cases hm : memStr seen i.id = true
      · rw [if_pos hm]
        exact (memStr_iff seen i.id).mp hm
      · rw [if_neg hm]
        exact List.mem_cons_self _ _
    · exact addSeen_mem rest _ i hr

theorem recordIds_append : ∀ a b : List ManifestLine,
    recordIds (a ++ b) = recordIds a ++ recordIds b
  | [], b => rfl
  | l :: rest, b => by
    cases l <;> simp [recordIds, recordIds_append rest b]

theorem manifestIds_append_manifest (m : Option (List ManifestLine)) (it : StagingItem) :
    manifestIds (append_manifest m it) = manifestIds m ++ [it.id] := by
  cases m <;> simp [manifestIds, append_manifest, recordIds_append, recordIds]

theorem parseLines_ok_of_noGarbage : ∀ ls : List ManifestLine,
    (∀ l ∈ ls, l ≠ ManifestLine.garbage) →
    ∃ its, parseLines ls = Except.ok its ∧ its.map StagingItem.id = recordIds ls
  | [], _ => ⟨[], rfl, rfl⟩
  | ManifestLine.blank :: rest, h => by
    obtain ⟨its, h1, h2⟩ :=
      parseLines_ok_of_noGarbage rest (fun l hl => h l (List.mem_cons_of_mem _ hl))
    exact ⟨its, by rw [parseLines]; exact h1, by simp [recordIds, h2]⟩
  | ManifestLine.garbage :: rest, h => absurd rfl (h _ (List.mem_cons_self _ _))
  | ManifestLine.record it :: rest, h => by
    obtain ⟨its, h1, h2⟩ :=
      parseLines_ok_of_noGarbage rest (fun l hl => h l (List.mem_cons_of_mem _ hl))
    refine ⟨it :: its, ?_, by simp [recordIds, h2]⟩
    rw [parseLines, h1]
    rfl

theorem read_manifest_ok_of_noGarbage (m : Option (List ManifestLine)) (hg : noGarbage m) :
    ∃ its, read_manifest m = Except.ok its ∧ its.map StagingItem.id = manifestIds m := by
  cases m with
  | none => exact ⟨[], rfl, rfl⟩
  | some ls =>
    obtain ⟨its, h1, h2⟩ := parseLines_ok_of_noGarbage ls hg
    exact ⟨its, h1, h2⟩

theorem get_existing_ids_eq (m : Option (List ManifestLine)) (its : List StagingItem)
    (h : read_manifest m = Except.ok its) :
    get_existing_ids m = Except.ok (its.map StagingItem.id) := by
  simp [get_existing_ids, h, Except.map]

theorem fetchLoop_invariant (pages : Nat → Option (List MemeItem)) (limit : Nat)
    (hp : ∀ p its, pages p = some its → (its.map MemeItem.id).Nodup) :
    ∀ (fuel page : Nat) (seen : List String) (acc : List MemeItem),
      (acc.map MemeItem.id).Nodup → (∀ i ∈ acc, i.id ∈ seen) →
      (((fetchLoop pages limit fuel page seen acc).1.map MemeItem.id).Nodup
        ∧ (∀ i ∈ (fetchLoop pages limit fuel page seen acc).1,
            i.id ∈ (fetchLoop pages limit fuel page seen acc).2.1)
        ∧ (∀ x ∈ seen, x ∈ (fetchLoop pages limit fuel page seen acc).2.1)
        ∧ (∀ i ∈ (fetchLoop pages limit fuel page seen acc).1, i ∈ acc ∨ i.id ∉ seen))
  | 0, page, seen, acc, hnd, hsub => by
    simp only [fetchLoop]
    exact ⟨hnd, hsub, fun x hx => hx, fun i hi => Or.inl hi⟩
  | fuel + 1, page, seen, acc, hnd, hsub => by
    by_cases hlt : acc.length < limit
    · cases hpg : pages page with
      | none =>
        simp only [fetchLoop, if_pos hlt, hpg]
        exact ⟨hnd, hsub, fun x hx => hx, fun i hi => Or.inl hi⟩
      | some items =>
        by_cases hemp : items.isEmpty = true
        · simp only [fetchLoop, if_pos hlt, hpg]
          rw [if_pos hemp]
          exact ⟨hnd, hsub, fun x hx => hx, fun i hi => Or.inl hi⟩
        · simp only [fetchLoop, if_pos hlt, hpg]
          rw [if_neg hemp]
          have hnd' : ((acc ++ newOnPage seen items).map MemeItem.id).Nodup := by
            rw [List.map_append]
            refine List.Nodup.append hnd (newOnPage_ids_nodup (hp page items hpg)) ?_
            intro a ha hb
            rcases List.mem_map.mp ha with ⟨i, hi, rfl⟩
            rcases List.mem_map.mp hb with ⟨j, hj, hij⟩
            have hjs := (newOnPage_mem hj).2
            rw [hij] at hjs
            exact hjs (hsub i hi)
          have hsub' : ∀ i ∈ acc ++ newOnPage seen items,
              i.id ∈ addSeen seen (newOnPage seen items) := by
            intro i hi
            rcases List.mem_append.mp hi with h1 | h1
            · exact addSeen_subset _ _ _ (hsub i h1)
            · exact addSeen_mem _ _ _ h1
          obtain ⟨d1, d2, d3, d4⟩ := fetchLoop_invariant pages limit hp fuel (page + 1)
            (addSeen seen (newOnPage seen items)) (acc ++ newOnPage seen items) hnd' hsub'
          refine ⟨d1, d2, fun x hx => d3 x (addSeen_subset _ _ _ hx), fun i hi => ?_⟩
          rcases d4 i hi with h1 | h1
          · rcases List.mem_append.mp h1 with h2 | h2
            · exact Or.inl h2
            · exact Or.inr (newOnPage_mem h2).2
          · exact Or.inr (fun hin => h1 (addSeen_subset _ _ _ hin))
    · simp only [fetchLoop, if_neg hlt]
      exact ⟨hnd, hsub, fun x hx => hx, fun i hi => Or.inl hi⟩

theorem fetchLoop_pages_before (pages : Nat → Option (List MemeItem)) (limit : Nat) :
    ∀ (fuel page : Nat) (seen : List String) (acc : List MemeItem),
      page ≤ (fetchLoop pages limit fuel page seen acc).2.2
      ∧ ∀ q, page ≤ q → q < (fetchLoop pages limit fuel page seen acc).2.2 →
          ∃ its, pages q = some its ∧ its ≠ []
  | 0, page, seen, acc => by
    simp only [fetchLoop]
    exact ⟨Nat.le_refl page, fun q hq1 hq2 => absurd hq2 (Nat.not_lt.mpr hq1)⟩
  | fuel + 1, page, seen, acc => by
    by_cases hlt : acc.length < limit
    · cases hpg : pages page with
      | none =>
        simp only [fetchLoop, if_pos hlt, hpg]
        exact ⟨Nat.le_refl page, fun q hq1 hq2 => absurd hq2 (Nat.not_lt.mpr hq1)⟩
      | some items =>
        by_cases hemp : items.isEmpty = true
        · simp only [fetchLoop, if_pos hlt, hpg]
          rw [if_pos hemp]
          exact ⟨Nat.le_refl page, fun q hq1 hq2 => absurd hq2 (Nat.not_lt.mpr hq1)⟩
        · simp only [fetchLoop, if_pos hlt, hpg]
          rw [if_neg hemp]
          obtain ⟨ih1, ih2⟩ := fetchLoop_pages_before pages limit fuel (page + 1)
            (addSeen seen (newOnPage seen items)) (acc ++ newOnPage seen items)
          refine ⟨Nat.le_trans (Nat.le_succ page) ih1, fun q hq1 hq2 => ?_⟩
          by_cases hqp : q = page
          · subst hqp
            refine ⟨items, hpg, fun he => hemp ?_⟩
            rw [he]
            rfl
          · exact ih2 q (Nat.succ_le_of_lt
              (Nat.lt_of_le_of_ne hq1 (fun h => hqp h.symm))) hq2
    · simp only [fetchLoop, if_neg hlt]
      exact ⟨Nat.le_refl page, fun q hq1 hq2 => absurd hq2 (Nat.not_lt.mpr hq1)⟩

theorem processDownloads_count (download : String → Option Nat) (now : String) :
    ∀ (items : List MemeItem) (n : Nat) (d : SourceDir),
      (processDownloads download now items n d).1
        = n + (items.filter (fun i => (download i.image_url).isSome)).length
  | [], n, d => by simp [processDownloads]
  | i :: rest, n, d => by
    simp only [processDownloads]
    cases hd : download i.image_url with
    | none =>
      simp only [hd]
      rw [processDownloads_count download now rest n d, List.filter_cons]
      simp [hd]
    | some b =>
      simp only [hd]
      rw [processDownloads_count download now rest (n + 1) _, List.filter_cons]
      simp [hd]
      omega

theorem processDownloads_manifestIds (download : String → Option Nat) (now : String) :
    ∀ (items : List MemeItem) (n : Nat) (d : SourceDir),
      manifestIds (processDownloads download now items n d).2.manifest
        = manifestIds d.manifest
          ++ (items.filter (fun i => (download i.image_url).isSome)).map MemeItem.id
  | [], n, d => by simp [processDownloads]
  | i :: rest, n, d => by
    simp only [processDownloads]
    cases hd : download i.image_url with
    | none =>
      simp only [hd]
      rw [processDownloads_manifestIds download now rest n d, List.filter_cons]
      simp [hd]
    | some b =>
      simp only [hd]
      rw [processDownloads_manifestIds download now rest (n + 1) _, List.filter_cons]
      simp [hd, manifestIds_append_manifest, create_staging_item, List.append_assoc]

theorem noGarbage_append_manifest {m : Option (List ManifestLine)} (it : StagingItem)
    (h : noGarbage m) : noGarbage (append_manifest m it) := by
  intro l hl
  simp only [append_manifest, Option.getD_some] at hl
  rcases List.mem_append.mp hl with h1 | h1
  · exact h l h1
  · rw [List.mem_singleton] at h1
    subst h1
    simp

theorem processDownloads_noGarbage (download : String → Option Nat) (now : String) :
    ∀ (items : List MemeItem) (n : Nat) (d : SourceDir),
      noGarbage d.manifest →
      noGarbage (processDownloads download now items n d).2.manifest
  | [], _, _, h => h
  | i :: rest, n, d, h => by
    simp only [processDownloads]
    cases hd : download i.image_url with
    | none =>
      simp only [hd]
      exact processDownloads_noGarbage download now rest n d h
    | some b =>
      simp only [hd]
      exact processDownloads_noGarbage download now rest (n + 1) _
        (noGarbage_append_manifest _ h)

theorem processDownloads_all_fail (download : String → Option Nat) (now : String) :
    ∀ (items : List MemeItem) (n : Nat) (d : SourceDir),
      (∀ i ∈ items, download i.image_url = none) →
      processDownloads download now items n d = (n, d)
  | [], _, _, _ => rfl
  | i :: rest, n, d, h => by
    simp only [processDownloads]
    simp only [h i (List.mem_cons_self _ _)]
    exact processDownloads_all_fail download now rest n d
      (fun j hj => h j (List.mem_cons_of_mem _ hj))

theorem crawl_preserves (pages : Nat → Option (List MemeItem)) (download : String → Option Nat)
    (now : String) (fuel limit : Nat) (cursor : Option Nat) (d : SourceDir)
    (hp : ∀ p its, pages p = some its → (its.map MemeItem.id).Nodup)
    (hg : noGarbage d.manifest) (hn : (manifestIds d.manifest).Nodup) :
    ∃ n c d', crawl pages download now fuel limit cursor d = Except.ok (n, c, d')
      ∧ noGarbage d'.manifest ∧ (manifestIds d'.manifest).Nodup := by
  obtain ⟨mits, hread, hids⟩ := read_manifest_ok_of_noGarbage d.manifest hg
  have hex := get_existing_ids_eq d.manifest mits hread
  obtain ⟨l1, l2, l3, l4⟩ := fetchLoop_invariant pages limit hp fuel (cursorStart cursor)
    (mits.map StagingItem.id) [] (by simp)
    (fun i hi => absurd hi (List.not_mem_nil i))
  refine ⟨(processDownloads download now
      ((fetchLoop pages limit fuel (cursorStart cursor)
        (mits.map StagingItem.id) []).1.take limit) 0 d).1,
    (if (processDownloads download now
        ((fetchLoop pages limit fuel (cursorStart cursor)
          (mits.map StagingItem.id) []).1.take limit) 0 d).1 > 0
      then some (fetchLoop pages limit fuel (cursorStart cursor)
        (mits.map StagingItem.id) []).2.2
      else none),
    (processDownloads download now
      ((fetchLoop pages limit fuel (cursorStart cursor)
        (mits.map StagingItem.id) []).1.take limit) 0 d).2,
    ?_, ?_, ?_⟩
  · unfold crawl
    rw [hex]
  · exact processDownloads_noGarbage download now _ 0 d hg
  · rw [processDownloads_manifestIds]
    refine List.Nodup.append hn ?_ ?_
    · exact (((List.filter_sublist _).trans (List.take_sublist _ _)).map MemeItem.id).nodup l1
    · intro a ha hb
      rcases List.mem_map.mp hb with ⟨i, hi, rfl⟩
      have hi1 : i ∈ (fetchLoop pages limit fuel (cursorStart cursor)
          (mits.map StagingItem.id) []).1 :=
        List.mem_of_mem_take (List.mem_of_mem_filter hi)
      rcases l4 i hi1 with h1 | h1
      · exact absurd h1 (List.not_mem_nil i)
      · rw [← hids] at ha
        exact h1 ha

theorem runSeq_preserves : ∀ (invs : List Invocation) (d : SourceDir),
    (∀ inv ∈ invs, ∀ p its, inv.pages p = some its → (its.map MemeItem.id).Nodup) →
    noGarbage d.manifest → (manifestIds d.manifest).Nodup →
    ∃ d', runSeq invs d = Except.ok d'
      ∧ noGarbage d'.manifest ∧ (manifestIds d'.manifest).Nodup
  | [], d, _, hg, hn => ⟨d, rfl, hg, hn⟩
  | inv :: rest, d, hp, hg, hn => by
    obtain ⟨n, c, d1, hc, hg1, hn1⟩ := crawl_preserves inv.pages inv.download inv.now
      inv.fuel inv.limit inv.cursor d (hp inv (List.mem_cons_self _ _)) hg hn
    obtain ⟨d', h1, h2, h3⟩ := runSeq_preserves rest d1
      (fun j hj => hp j (List.mem_cons_of_mem _ hj)) hg1 hn1
    refine ⟨d', ?_, h2, h3⟩
    simp only [runSeq, hc]
    exact h1

/-- C2, corrected. Starting from a fresh source, any sequence of crawl
invocations leaves a manifest with pairwise distinct ids, provided that
within each single page the candidate ids are distinct. The proviso is
forced: the source filters a whole page against the seen set before
inserting any of its ids, so two same-id candidates arriving on one
page both pass the filter; across pages and across invocations the
seeding from existingIds and the immediate insertion before download do
prevent duplicates, and records are appended only for admitted ids. -/
theorem c2_no_duplicate_ids (invs : List Invocation)
    (hp : ∀ inv ∈ invs, ∀ p its, inv.pages p = some its → (its.map MemeItem.id).Nodup) :
    ∃ d', runSeq invs emptyDir = Except.ok d' ∧ (manifestIds d'.manifest).Nodup := by
  obtain ⟨d', h1, _, h3⟩ := runSeq_preserves invs emptyDir hp
    (fun l hl => absurd hl (List.not_mem_nil l))
    (by simp [manifestIds, emptyDir, recordIds])
  exact ⟨d', h1, h3⟩

theorem c2_witness :
    (∀ inv ∈ [okInv], ∀ p its, inv.pages p = some its → (its.map MemeItem.id).Nodup)
    ∧ ∃ d', runSeq [okInv] emptyDir = Except.ok d'
        ∧ (manifestIds d'.manifest).Nodup := by
  have hp : ∀ inv ∈ [okInv], ∀ p its, inv.pages p = some its →
      (its.map MemeItem.id).Nodup := by
    intro inv hinv p its hpi
    rw [List.mem_singleton] at hinv
    subst hinv
    simp only [okInv] at hpi
    by_cases h : p = 1
    · rw [if_pos h] at hpi
      injection hpi with h2
      subst h2
      simp
    · rw [if_neg h] at hpi
      injection hpi with h2
      subst h2
      simp
  exact ⟨hp, c2_no_duplicate_ids [okInv] hp⟩

/-- C2 counterexample: one invocation whose first page carries two
candidates with the same id (the filter is applied to the whole page
before any id is inserted into the seen set) persists that id twice in
the manifest, refuting the claim as stated over all candidate
multisets. -/
theorem c2_counterexample :
    ¬ (manifestIds (exOr (runSeq [dupInv] emptyDir) emptyDir).manifest).Nodup := by
  decide

theorem fetchLoop_stop_limit (pages : Nat → Option (List MemeItem))
    (limit fuel page : Nat) (seen : List String) (acc : List MemeItem)
    (h : ¬ acc.length < limit) :
    fetchLoop pages limit (fuel + 1) page seen acc = (acc, seen, page) := by
  simp only [fetchLoop, if_neg h]

theorem fetchLoop_stop_fail (pages : Nat → Option (List MemeItem))
    (limit fuel page : Nat) (seen : List String) (acc : List MemeItem)
    (h : acc.length < limit) (hpg : pages page = none) :
    fetchLoop pages limit (fuel + 1) page seen acc = (acc, seen, page) := by
  simp only [fetchLoop, if_pos h, hpg]

theorem fetchLoop_stop_empty (pages : Nat → Option (List MemeItem))
    (limit fuel page : Nat) (seen : List String) (acc : List MemeItem)
    (h : acc.length < limit) (hpg : pages page = some []) :
    fetchLoop pages limit (fuel + 1) page seen acc = (acc, seen, page) := by
  simp only [fetchLoop, if_pos h, hpg]
  rfl

theorem fetchLoop_step (pages : Nat → Option (List MemeItem))
    (limit fuel page : Nat) (seen : List String) (acc : List MemeItem)
    (its : List MemeItem) (h : acc.length < limit)
    (hpg : pages page = some its) (hne : its ≠ []) :
    fetchLoop pages limit (fuel + 1) page seen acc
      = fetchLoop pages limit fuel (page + 1)
          (addSeen seen (newOnPage seen its)) (acc ++ newOnPage seen its) := by
  have hemp : ¬ its.isEmpty = true := by
    cases its with
    | nil => exact absurd rfl hne
    | cons a l => simp
  simp only [fetchLoop, if_pos h, hpg, if_neg hemp]

/-- C5, confirmed. The crawl result (itemsCrawled, nextCursor)
satisfies: nextCursor is absent exactly when itemsCrawled is zero; when
itemsCrawled is positive the cursor is the final page counter of the
fetch loop, which lies at or beyond the starting page and is preceded
only by pages that were fetched successfully and nonempty; and when
every download fails the crawl returns zero items, no cursor, and the
source directory, manifest included, unchanged. -/
theorem c5_cursor_iff_progress :
    (∀ pages download now fuel limit cursor d n c d',
      crawl pages download now fuel limit cursor d = Except.ok (n, c, d') →
        ((c = none ↔ n = 0)
          ∧ (0 < n → ∃ p, c = some p ∧ cursorStart cursor ≤ p
              ∧ ∀ q, cursorStart cursor ≤ q → q < p →
                  ∃ its, pages q = some its ∧ its ≠ [])))
    ∧ (∀ pages now fuel limit cursor d its,
        read_manifest d.manifest = Except.ok its →
        crawl pages (fun _ => none) now fuel limit cursor d
          = Except.ok (0, none, d)) := by
  constructor
  · intro pages download now fuel limit cursor d n c d' h
    unfold crawl at h
    cases hex : get_existing_ids d.manifest with
    | error e =>
      rw [hex] at h
      exact absurd h (by simp)
    | ok existing =>
      rw [hex] at h
      simp only [Except.ok.injEq, Prod.mk.injEq] at h
      obtain ⟨rfl, rfl, rfl⟩ := h
      constructor
      · by_cases h0 : (processDownloads download now
            ((fetchLoop pages limit fuel (cursorStart cursor)
              existing []).1.take limit) 0 d).1 > 0
        · rw [if_pos h0]
          constructor
          · intro hc
            exact absurd hc (by simp)
          · intro h0'
            omega
        · rw [if_neg h0]
          constructor
          · intro _
            omega
          · intro _
            rfl
      · intro hpos
        refine ⟨(fetchLoop pages limit fuel (cursorStart cursor) existing []).2.2,
          if_pos hpos,
          (fetchLoop_pages_before pages limit fuel (cursorStart cursor) existing []).1,
          fun q hq1 hq2 =>
            (fetchLoop_pages_before pages limit fuel (cursorStart cursor)
              existing []).2 q hq1 hq2⟩
  · intro pages now fuel limit cursor d its hread
    have hex := get_existing_ids_eq d.manifest its hread
    simp only [crawl, hex]
    rw [processDownloads_all_fail (fun _ => none) now _ 0 d (fun i _ => rfl)]
    simp

theorem c5_witness :
    read_manifest emptyDir.manifest = Except.ok [] ∧
    crawl (fun _ => some []) (fun _ => none) "t0" 3 5 none emptyDir
      = Except.ok (0, none, emptyDir) :=
  ⟨rfl, c5_cursor_iff_progress.2 (fun _ => some []) "t0" 3 5 none emptyDir [] rfl⟩

/-- C7, confirmed. The fetch loop stops exactly when the first of the
three conditions holds: the collected items have reached the limit, the
page fetch failed (the loop stops at that page, skipping nothing), or
the page yielded zero candidates; in every other situation it consumes
the page and recurses. Moreover, on a page failure the items already
collected are still handed to the download phase: a run whose first
page succeeds and whose second page fails downloads every collected
candidate, appends their records to the manifest, and reports them in
the returned count. -/
theorem c7_fetch_stop :
    (∀ (pages : Nat → Option (List MemeItem)) (limit fuel page : Nat)
        (seen : List String) (acc : List MemeItem),
      (¬ acc.length < limit →
          fetchLoop pages limit (fuel + 1) page seen acc = (acc, seen, page))
      ∧ (acc.length < limit → pages page = none →
          fetchLoop pages limit (fuel + 1) page seen acc = (acc, seen, page))
      ∧ (acc.length < limit → pages page = some [] →
          fetchLoop pages limit (fuel + 1) page seen acc = (acc, seen, page))
      ∧ (∀ its, acc.length < limit → pages page = some its → its ≠ [] →
          fetchLoop pages limit (fuel + 1) page seen acc
            = fetchLoop pages limit fuel (page + 1)
                (addSeen seen (newOnPage seen its)) (acc ++ newOnPage seen its)))
    ∧ (∀ pages download now fuel limit p0 (d : SourceDir) mits its,
        read_manifest d.manifest = Except.ok mits →
        pages p0 = some its → its ≠ [] →
        (∀ i ∈ its, i.id ∉ mits.map StagingItem.id) →
        pages (p0 + 1) = none →
        (∀ i ∈ its, (download i.image_url).isSome = true) →
        its.length ≤ limit →
        ∃ d', crawl pages download now (fuel + 2) limit (some p0) d
            = Except.ok (its.length, some (p0 + 1), d')
          ∧ manifestIds d'.manifest
              = manifestIds d.manifest ++ its.map MemeItem.id) := by
  constructor
  · intro pages limit fuel page seen acc
    refine ⟨?_, ?_, ?_, ?_⟩
    · intro hlt
      simp only [fetchLoop, if_neg hlt]
    · intro hlt hpg
      simp only [fetchLoop, if_pos hlt, hpg]
    · intro hlt hpg
      simp only [fetchLoop, if_pos hlt, hpg]
      rfl
    · intro its hlt hpg hne
      have hemp : ¬ its.isEmpty = true := by
        cases its with
        | nil => exact absurd rfl hne
        | cons a l => simp
      simp only [fetchLoop, if_pos hlt, hpg, if_neg hemp]
  · intro pages download now fuel limit p0 d mits its hread hp0 hne hnotin hp1 hdl hlen
    have hex := get_existing_ids_eq d.manifest mits hread
    have hnew : newOnPage (mits.map StagingItem.id) its = its :=
      newOnPage_eq_self (fun i hi => hnotin i hi)
    have hemp : ¬ its.isEmpty = true := by
      cases its with
      | nil => exact absurd rfl hne
      | cons a l => simp
    have hpos : 0 < its.length := by
      cases its with
      | nil => exact absurd rfl hne
      | cons a l => simp
    have hfil : its.filter (fun i => (download i.image_url).isSome) = its :=
      List.filter_eq_self.mpr (fun i hi => hdl i hi)
    have h0limit : ([] : List MemeItem).length < limit := by
      simp only [List.length_nil]
      exact Nat.lt_of_lt_of_le hpos hlen
    have hloop : fetchLoop pages limit (fuel + 2) p0 (mits.map StagingItem.id) []
        = (its, addSeen (mits.map StagingItem.id) its, p0 + 1) := by
      show fetchLoop pages limit (fuel + 1 + 1) p0 _ [] = _
      rw [fetchLoop_step pages limit (fuel + 1) p0 _ [] its h0limit hp0 hne,
        hnew, List.nil_append]
      by_cases hlt2 : its.length < limit
      · exact fetchLoop_stop_fail pages limit fuel (p0 + 1) _ its hlt2 hp1
      · exact fetchLoop_stop_limit pages limit fuel (p0 + 1) _ its hlt2
    refine ⟨(processDownloads download now its 0 d).2, ?_, ?_⟩
    · unfold crawl
      rw [hex]
      simp only [cursorStart]
      rw [hloop]
      simp only [List.take_of_length_le hlen]
      rw [processDownloads_count download now its 0 d, hfil]
      simp [hpos]
    · rw [processDownloads_manifestIds download now its 0 d, hfil]

theorem c7_witness :
    ¬ ([sampleMeme].length < 1)
    ∧ fetchLoop (fun _ => none) 1 3 7 [] [sampleMeme] = ([sampleMeme], [], 7) :=
  ⟨by decide,
    (c7_fetch_stop.1 (fun _ => none) 1 2 7 [] [sampleMeme]).1 (by decide)⟩

theorem lookupEntry_removeEntry_self (sid : String) :
    ∀ l, lookupEntry (removeEntry l sid) sid = none
  | [] => rfl
  | (name, e) :: rest => by
    by_cases h : name = sid
    · simp only [removeEntry, if_pos h]
      exact lookupEntry_removeEntry_self sid rest
    · simp only [removeEntry, if_neg h, lookupEntry, if_neg h]
      exact lookupEntry_removeEntry_self sid rest

theorem lookupEntry_removeEntry_other (sid s : String) (hne : s ≠ sid) :
    ∀ l, lookupEntry (removeEntry l sid) s = lookupEntry l s
  | [] => rfl
  | (name, e) :: rest => by
    by_cases h : name = sid
    · have hns : ¬ name = s := fun hh => hne (by rw [← hh, h])
      simp only [removeEntry, if_pos h, lookupEntry, if_neg hns]
      exact lookupEntry_removeEntry_other sid s hne rest
    · simp only [removeEntry, if_neg h, lookupEntry]
      by_cases h2 : name = s
      · rw [if_pos h2, if_pos h2]
      · rw [if_neg h2, if_neg h2]
        exact lookupEntry_removeEntry_other sid s hne rest

/-- C8, confirmed. Cleaning a source whose directory does not exist is
a no-op that raises nothing and changes no state; cleaning an existing
source directory removes that whole directory, manifest and images,
while leaving every other source untouched; clean_all is a no-op when
the staging root does not exist and otherwise deletes the entire root. -/
theorem c8_clean (sid : String) (st : Staging) :
    (findSource st sid = none → clean st sid = Except.ok st)
    ∧ (∀ l dd, st.root = some l → lookupEntry l sid = some (FsEntry.dir dd) →
        ∃ st', clean st sid = Except.ok st'
          ∧ findSource st' sid = none
          ∧ ∀ s, s ≠ sid → findSource st' s = findSource st s)
    ∧ (st.root = none → clean_all st = st)
    ∧ (clean_all st).root = none := by
  refine ⟨?_, ?_, ?_, ?_⟩
  · intro h
    simp [clean, h]
  · intro l dd hroot hl
    have hfind : findSource st sid = some (FsEntry.dir dd) := by
      simp [findSource, hroot, hl]
    refine ⟨⟨some (removeEntry l sid)⟩, ?_, ?_, ?_⟩
    · simp only [clean, hfind, hroot]
    · simp only [findSource]
      exact lookupEntry_removeEntry_self sid l
    · intro s hs
      simp only [findSource, hroot]
      exact lookupEntry_removeEntry_other sid s hs l
  · intro h
    simp [clean_all, h]
  · cases h : st.root with
    | none => simp [clean_all, h]
    | some l => simp [clean_all, h]

theorem c8_witness :
    findSource (⟨some [("a", FsEntry.dir emptyDir)]⟩ : Staging) "b" = none ∧
    clean (⟨some [("a", FsEntry.dir emptyDir)]⟩ : Staging) "b"
      = Except.ok (⟨some [("a", FsEntry.dir emptyDir)]⟩ : Staging) :=
  ⟨by decide, (c8_clean "b" ⟨some [("a", FsEntry.dir emptyDir)]⟩).1 (by decide)⟩

/-- C10, confirmed. A missing manifest file reads back as the empty
list with no error, so get_existing_ids yields the empty set; and
list_sources returns the empty list when the staging root does not
exist and otherwise exactly the names of root entries that are
directories containing a manifest file. -/
theorem c10_missing_and_listing :
    read_manifest none = Except.ok []
    ∧ get_existing_ids none = Except.ok []
    ∧ (∀ st : Staging, st.root = none → list_sources st = [])
    ∧ (∀ (l : List (String × FsEntry)) (s : String),
        s ∈ list_sources ⟨some l⟩
          ↔ ∃ e ∈ l, e.1 = s ∧ hasManifest e.2 = true) := by
  refine ⟨rfl, rfl, ?_, ?_⟩
  · intro st h
    simp [list_sources, h]
  · intro l s
    simp only [list_sources, List.mem_map, List.mem_filter]
    constructor
    · rintro ⟨e, ⟨he, hm⟩, hname⟩
      exact ⟨e, he, hname, hm⟩
    · rintro ⟨e, he, hname, hm⟩
      exact ⟨e, ⟨he, hm⟩, hname⟩

theorem c10_witness :
    (⟨none⟩ : Staging).root = none ∧ list_sources (⟨none⟩ : Staging) = [] :=
  ⟨rfl, c10_missing_and_listing.2.2.1 ⟨none⟩ rfl⟩

end Emomo
